import Mathlib

/-! Verification of `geogrid_to_tif.py`.

A shallow embedding of the WPS GEOGRID tile-to-GeoTIFF converter
(`src/geogrid_to_tif.py`) together with theorems settling the claims about
its specification.

Conventions of the embedding:
* Python `bytes` values are `List Nat` whose entries are below 256 (stated as a
  hypothesis where it matters).
* Python exceptions (`IndexError` from out-of-range indexing, `ValueError` from
  `int(...)`/`reshape`, failing `assert`) are modelled by `Option`: `none` means
  the run aborts with an error.
* Python floats are modelled by `Rat`; the claims under verification concern
  only the exact algebraic structure of the affine transform.
-/

namespace GeogridToTif

/-! Section: binary tile decoder (`decode_geogrid_binary`, lines 85–95).

The source iterates `start` over `range(0, len(binary_str), wordsize)`; for each
group it accumulates `num = (num << 8) | binary_str[start + i]` for
`i = 0 .. wordsize-1` and applies the two's-complement correction when `signed`.
`decodeGroup` is the inner loop (indexing out of range aborts, as in Python);
`decodeGroups` is the outer loop, fuelled by the number of iterations of
`range(0, len, wordsize)`, namely `⌈len / wordsize⌉`. -/

/-- The sign correction `if signed and num >= (1 << (8 * wordsize - 1)): num -= 1 << (8 * wordsize)`. -/
def signCorrect (wordsize : Nat) (signed : Bool) (num : Nat) : Int :=
  if signed = true ∧ (1 <<< (8 * wordsize - 1)) ≤ num then
    (num : Int) - ((1 <<< (8 * wordsize) : Nat) : Int)
  else (num : Int)

/-- Inner loop of `decode_geogrid_binary`: accumulate `k` bytes starting at
`start` into `num` by `num = (num << 8) | binary_str[start + i]`; an
out-of-range index is Python's `IndexError`, i.e. `none`. -/
def decodeGroup (bs : List Nat) : Nat → Nat → Nat → Option Nat
  | _, num, 0 => some num
  | start, num, k + 1 =>
    match bs[start]? with
    | none => none
    | some b => decodeGroup bs (start + 1) ((num <<< 8) ||| b) k

/-- Outer loop of `decode_geogrid_binary`: decode `n` consecutive
`wordsize`-byte groups beginning at `start`, applying the sign correction to
each and collecting the results in order. -/
def decodeGroups (bs : List Nat) (wordsize : Nat) (signed : Bool) :
    Nat → Nat → Option (List Int)
  | _, 0 => some []
  | start, n + 1 =>
    match decodeGroup bs start 0 wordsize with
    | none => none
    | some num =>
      match decodeGroups bs wordsize signed (start + wordsize) n with
      | none => none
      | some rest => some (signCorrect wordsize signed num :: rest)

/-- Python function `decode_geogrid_binary(binary_str, wordsize, signed)`.  `range(0, len, 0)`
raises in Python, hence the `wordsize = 0` guard; otherwise the outer loop runs
`⌈len / wordsize⌉` times. -/
def decode_geogrid_binary (bs : List Nat) (wordsize : Nat) (signed : Bool) :
    Option (List Int) :=
  if wordsize = 0 then none
  else decodeGroups bs wordsize signed 0 ((bs.length + wordsize - 1) / wordsize)

/-- The value accumulated from one byte group, as a function of the group. -/
def wordVal (w : List Nat) : Nat :=
  w.foldl (fun num b => (num <<< 8) ||| b) 0

/-- Big-endian byte decomposition of `u` into `ws` bytes (most significant
first).  This is the standard big-endian encoding used to state the round-trip
property of the decoder. -/
def bytesOfNat : Nat → Nat → List Nat
  | 0, _ => []
  | ws + 1, u => (u / 256 ^ ws % 256) :: bytesOfNat ws u

/-- Big-endian two's-complement encoding of an integer into `ws` bytes:
the bytes of `v mod 2^(8*ws)`. -/
def encodeTwos (ws : Nat) (v : Int) : List Nat :=
  bytesOfNat ws (v % ((2 : Int) ^ (8 * ws))).toNat

/-- The integer range a `ws`-byte word covers for the given signedness. -/
def inWordRange (ws : Nat) (signed : Bool) (v : Int) : Prop :=
  if signed = true then
    -(2 : Int) ^ (8 * ws - 1) ≤ v ∧ v < (2 : Int) ^ (8 * ws - 1)
  else 0 ≤ v ∧ v < (2 : Int) ^ (8 * ws)

/-! Section: reshape, border strip, and the per-tile pipeline (lines 167–181). -/

/-- NumPy `reshape` of a flat array to shape `(z, r, c)` in row-major order:
fails (`ValueError`) unless the element count matches exactly; entry
`[i][j][k]` is flat element `(i*r + j)*c + k`. -/
def reshape3 (z r c : Nat) (flat : List Int) : Option (List (List (List Int))) :=
  if flat.length = z * r * c then
    some ((List.range z).map fun i =>
      (List.range r).map fun j =>
        (List.range c).map fun k => flat.getD ((i * r + j) * c + k) 0)
  else none

/-- Python slice `l[b:-b]` for `b > 0`: elements `b .. len-b-1`. -/
def sliceTrim {α : Type} (b : Nat) (l : List α) : List α :=
  (l.drop b).take (l.length - 2 * b)

/-- Border strip `tile[:, tile_bdr:-tile_bdr, tile_bdr:-tile_bdr]`, applied
only when `tile_bdr > 0` (lines 176–181); the band axis is untouched. -/
def stripBorder (bdr : Nat) (tile : List (List (List Int))) :
    List (List (List Int)) :=
  if 0 < bdr then
    tile.map fun band => (sliceTrim bdr band).map fun row => sliceTrim bdr row
  else tile

/-- Decode, reshape and strip the border of one tile file (lines 167–181):
decode the raw bytes, reshape to
`(tile_z, tile_y + 2*tile_bdr, tile_x + 2*tile_bdr)`, then strip the border. -/
def decodeTile (wordsize : Nat) (signed : Bool)
    (tile_z tile_y tile_x tile_bdr : Nat) (bs : List Nat) :
    Option (List (List (List Int))) :=
  (decode_geogrid_binary bs wordsize signed).bind fun flat =>
    (reshape3 tile_z (tile_y + 2 * tile_bdr) (tile_x + 2 * tile_bdr) flat).map
      (stripBorder tile_bdr)

/-! Section: tile placement (lines 149, 182–186). -/

/-- Tile placement: `is_top_to_bottom = dy < 0` (line 149).  Top-to-bottom
places at `(x_start - 1, y_start - 1)` unreversed; bottom-to-top places at
`(x_start - 1, y_size - y_end)` and reverses the row axis of every band
(`tile[:, ::-1]`, lines 182–186). -/
def placeTile (dy : Rat) (x_start y_start y_end y_size : Int)
    (tile : List (List (List Int))) : (Int × Int) × List (List (List Int)) :=
  if dy < 0 then ((x_start - 1, y_start - 1), tile)
  else ((x_start - 1, y_size - y_end), tile.map fun band => band.reverse)

/-! Section: the affine geo-transform (lines 143–156). -/

/-- An affine transform in the representation of the `affine` library:
`xNew = a x + b y + c`, `yNew = d x + e y + f`. -/
structure Affine where
  a : Rat
  b : Rat
  c : Rat
  d : Rat
  e : Rat
  f : Rat

/-- Apply an affine transform to a point. -/
def Affine.apply (t : Affine) (p : Rat × Rat) : Rat × Rat :=
  (t.a * p.1 + t.b * p.2 + t.c, t.d * p.1 + t.e * p.2 + t.f)

/-- Translation, as in the library function `Affine.translation`. -/
def Affine.translation (tx ty : Rat) : Affine :=
  ⟨1, 0, tx, 0, 1, ty⟩

/-- Scaling, as in the library function `Affine.scale`. -/
def Affine.scale (sx sy : Rat) : Affine :=
  ⟨sx, 0, 0, 0, sy, 0⟩

/-- Composition `A * B` of the `affine` library: apply `B` first, then `A`. -/
def Affine.mul (A B : Affine) : Affine :=
  ⟨A.a * B.a + A.b * B.d, A.a * B.b + A.b * B.e, A.a * B.c + A.b * B.f + A.c,
   A.d * B.a + A.e * B.d, A.d * B.b + A.e * B.e, A.d * B.c + A.e * B.f + A.f⟩

/-- The composed transform of lines 143–147:
`translation(known_lon, known_lat) * scale(dx, dy) *
translation(-known_x, -known_y)`. -/
def geogridAffine (known_lon known_lat dx dy known_x known_y : Rat) : Affine :=
  ((Affine.translation known_lon known_lat).mul (Affine.scale dx dy)).mul
    (Affine.translation (-known_x) (-known_y))

/-- The six geo-transform coefficients stored on the sink (lines 149–156):
anchored at pixel `(1, 1)` with height `dy` when `dy < 0`, else at
`(1, y_size)` with height `-dy`. -/
def geoTransform (known_lon known_lat dx dy known_x known_y y_size : Rat) :
    List Rat :=
  if dy < 0 then
    [((geogridAffine known_lon known_lat dx dy known_x known_y).apply (1, 1)).1,
      dx, 0,
      ((geogridAffine known_lon known_lat dx dy known_x known_y).apply (1, 1)).2,
      0, dy]
  else
    [((geogridAffine known_lon known_lat dx dy known_x known_y).apply
        (1, y_size)).1,
      dx, 0,
      ((geogridAffine known_lon known_lat dx dy known_x known_y).apply
        (1, y_size)).2,
      0, -dy]

/-! Section: GDAL sample types (`get_gdal_type`, lines 75–82). -/

/-- The GDAL integer sample types available to the program. -/
inductive GDALType where
  | gdtByte
  | gdtUInt16
  | gdtInt16
  | gdtUInt32
  | gdtInt32
  deriving DecidableEq

/-- Python list indexing `lst[i]`, with negative-index wraparound and
`IndexError` out of range. -/
def pyIndex {α : Type} (l : List α) (i : Int) : Option α :=
  if 0 ≤ i then l[i.toNat]?
  else if (-i).toNat ≤ l.length then l[l.length - (-i).toNat]? else none

/-- Lookup `get_gdal_type(wordsize, signed)` (lines 75–82): a four-entry table
indexed by `wordsize - 1` with Python list-index semantics. -/
def get_gdal_type (wordsize : Int) (signed : Bool) : Option GDALType :=
  if signed then
    pyIndex
      [GDALType.gdtInt16, GDALType.gdtInt16, GDALType.gdtInt32, GDALType.gdtInt32]
      (wordsize - 1)
  else
    pyIndex
      [GDALType.gdtByte, GDALType.gdtUInt16, GDALType.gdtUInt32, GDALType.gdtUInt32]
      (wordsize - 1)

/-- Smallest representable value of a GDAL sample type. -/
def GDALType.minVal : GDALType → Int
  | .gdtByte => 0
  | .gdtUInt16 => 0
  | .gdtInt16 => -(2 ^ 15)
  | .gdtUInt32 => 0
  | .gdtInt32 => -(2 ^ 31)

/-- Largest representable value of a GDAL sample type. -/
def GDALType.maxVal : GDALType → Int
  | .gdtByte => 2 ^ 8 - 1
  | .gdtUInt16 => 2 ^ 16 - 1
  | .gdtInt16 => 2 ^ 15 - 1
  | .gdtUInt32 => 2 ^ 32 - 1
  | .gdtInt32 => 2 ^ 31 - 1

/-- Storage width in bits of a GDAL sample type. -/
def GDALType.bits : GDALType → Nat
  | .gdtByte => 8
  | .gdtUInt16 => 16
  | .gdtInt16 => 16
  | .gdtUInt32 => 32
  | .gdtInt32 => 32

/-- Signedness of a GDAL sample type. -/
def GDALType.isSigned : GDALType → Bool
  | .gdtInt16 => true
  | .gdtInt32 => true
  | _ => false

/-- A sample type holds `ws` bytes of the given signedness when every value of
the `ws`-byte word range fits between its min and max values. -/
def holdsWord (t : GDALType) (ws : Nat) (signed : Bool) : Prop :=
  ∀ v : Int, inWordRange ws signed v → t.minVal ≤ v ∧ v ≤ t.maxVal

/-! Section: canvas sizing (lines 126–127). -/

/-- Canvas size: `x_size` is the maximum `x_end` and `y_size` the maximum
`y_end` over all tile bounds `(x_start, x_end, y_start, y_end)`; `np.max` of an
empty array raises. -/
def canvasSize (tile_bounds : List (Int × Int × Int × Int)) :
    Option (Int × Int) :=
  match tile_bounds with
  | [] => none
  | b :: rest =>
    some (rest.foldl (fun acc t => (max acc.1 t.2.1, max acc.2 t.2.2.2))
      (b.2.1, b.2.2.2))

/-! Section: index parsing (`read_index`, lines 13–72). -/

/-- Typed values held in the parsed index dictionary. -/
inductive Value where
  | intV (i : Int)
  | floatV (q : Rat)
  | boolV (b : Bool)
  | strV (s : String)
  deriving DecidableEq

/-- Python dict update: replace the value of an existing key in place, or
append a new binding. -/
def dictSet : List (String × Value) → String → Value → List (String × Value)
  | [], k, v => [(k, v)]
  | kv :: rest, k, v =>
    if kv.1 = k then (k, v) :: rest else kv :: dictSet rest k v

/-- Python dict lookup. -/
def dictGet (d : List (String × Value)) (k : String) : Option Value :=
  (d.find? fun kv => kv.1 == k).map fun kv => kv.2

/-- Python `in` test on a dict. -/
def dictContains (d : List (String × Value)) (k : String) : Bool :=
  d.any fun kv => kv.1 == k

/-- Integer fields of `read_index` (lines 14–25). -/
def int_fields : List String :=
  ["category_min", "category_max", "tile_x", "tile_y", "tile_z",
   "tile_z_start", "tile_z_end", "wordsize", "filename_digits", "tile_bdr"]

/-- Float fields of `read_index` (lines 26–35). -/
def float_fields : List String :=
  ["dx", "dy", "known_x", "known_y", "known_lat", "known_lon",
   "scale_factor", "missing_value"]

/-- Boolean fields of `read_index` (line 36). -/
def boolean_fields : List String := ["signed"]

/-- Defaults pre-seeded before parsing (lines 37–45), in insertion order. -/
def defaultIndex : List (String × Value) :=
  [("filename_digits", Value.intV 5), ("signed", Value.boolV false),
   ("known_x", Value.intV 1), ("known_y", Value.intV 1),
   ("scale_factor", Value.intV 1), ("endian", Value.strV ("big")),
   ("tile_bdr", Value.intV 0)]

/-- Digits-only string to number; fails on empty or non-digit input. -/
def decDigits? (cs : List Char) : Option Nat :=
  if cs ≠ [] ∧ cs.all Char.isDigit then
    some (cs.foldl (fun a c => a * 10 + (c.toNat - 48)) 0)
  else none

/-- Python `int(str)` on an already-stripped decimal literal with an optional
sign; anything else raises `ValueError`. -/
def pyIntCore (cs : List Char) : Option Int :=
  match cs with
  | '-' :: rest => (decDigits? rest).map fun n => -(n : Int)
  | '+' :: rest => (decDigits? rest).map fun n => (n : Int)
  | _ => (decDigits? cs).map fun n => (n : Int)

/-- Magnitude of a plain decimal float literal (digits, optionally a dot and
more digits); exponents and specials are not needed by any claim and are
modelled as failures. -/
def pyFloatMag (cs : List Char) : Option Rat :=
  match cs.splitOn '.' with
  | [ip] => (decDigits? ip).map fun n => (n : Rat)
  | [ip, fp] =>
    match decDigits? ip, decDigits? fp with
    | some n, some m => some ((n : Rat) + (m : Rat) / ((10 : Rat) ^ fp.length))
    | _, _ => none
  | _ => none

/-- Python `float(str)` on a plain signed decimal literal. -/
def pyFloatCore (cs : List Char) : Option Rat :=
  match cs with
  | '-' :: rest => (pyFloatMag rest).map fun q => -q
  | '+' :: rest => (pyFloatMag rest).map fun q => q
  | _ => pyFloatMag cs

/-- Python `str.strip()` on ASCII whitespace, over the character list. -/
def pyStrip (cs : List Char) : List Char :=
  ((cs.dropWhile fun ch => ch.isWhitespace).reverse.dropWhile fun ch =>
    ch.isWhitespace).reverse

/-- Python `str.lower()`, over the character list. -/
def pyLower (cs : List Char) : List Char :=
  cs.map Char.toLower

/-- Python `str.split(sep, maxsplit=1)` when the two pieces are unpacked:
fails when the separator does not occur. -/
def splitFirst (sep : Char) : List Char → Option (List Char × List Char)
  | [] => none
  | ch :: rest =>
    if ch = sep then some ([], rest)
    else (splitFirst sep rest).map fun p => (ch :: p.1, p.2)

/-- Parse one line of the index file (lines 48–64): strip, skip blank and `#`
lines, split on the first `=`, lower-case and trim the key, coerce the value by
the field tables.  Lines are character lists (Python `str` values).  Result
`some none` is a skipped line; `none` aborts the parse (failed unpacking,
coercion, or indexing). -/
def parseLine (line : List Char) : Option (Option (String × Value)) :=
  let l := pyStrip line
  if l = [] then some none
  else if l.headD ' ' = '#' then some none
  else
    match splitFirst '=' l with
    | none => none
    | some kv =>
      let key := String.mk (pyLower (pyStrip kv.1))
      let v := pyStrip kv.2
      if int_fields.contains key then
        (pyIntCore v).map fun i => some (key, Value.intV i)
      else if float_fields.contains key then
        (pyFloatCore v).map fun q => some (key, Value.floatV q)
      else if boolean_fields.contains key then
        some (some (key, Value.boolV (v = "yes".data)))
      else if v = [] then none
      else if v.headD ' ' = '"' ∧ v.getLastD ' ' = '"' then
        some (some (key, Value.strV (String.mk (v.drop 1).dropLast)))
      else some (some (key, Value.strV (String.mk v)))

/-- The parse loop of `read_index` (lines 47–64), threading the dictionary. -/
def parseLines : List (List Char) → List (String × Value) →
    Option (List (String × Value))
  | [], d => some d
  | line :: rest, d =>
    match parseLine line with
    | none => none
    | some none => parseLines rest d
    | some (some kv) => parseLines rest (dictSet d kv.1 kv.2)

/-- Pairing check on `tile_z_start` and `tile_z_end` (lines 66–70): if either
key is present both must be, and then `tile_z = tile_z_end - tile_z_start + 1`. -/
def applyTileZ (d : List (String × Value)) : Option (List (String × Value)) :=
  if dictContains d ("tile_z_start") || dictContains d ("tile_z_end") then
    match dictGet d ("tile_z_start"), dictGet d ("tile_z_end") with
    | some (Value.intV a), some (Value.intV b) =>
      some (dictSet d ("tile_z") (Value.intV (b - a + 1)))
    | _, _ => none
  else some d

/-- Whole-index parse `read_index` (lines 13–72) over the file lines. -/
def read_index (lines : List (List Char)) : Option (List (String × Value)) :=
  (parseLines lines defaultIndex).bind applyTileZ

/-! Section: tile filename pattern and bounds parsing (lines 104–123). -/

/-- Width of each `?` field in the glob the source builds (lines 104–107):
five when `filename_digits == 5`, otherwise six. -/
def globWidth (filename_digits : Nat) : Nat :=
  if filename_digits = 5 then 5 else 6

/-- Whether a basename matches the glob pattern the source uses: four fields of
`globWidth` arbitrary characters separated as `F-F.F-F` (glob `?` matches any
character of a basename but a pattern does not match a leading dot). -/
def matchesTilePattern (filename_digits : Nat) (name : List Char) : Bool :=
  let w := globWidth filename_digits
  name.length == 4 * w + 3 && name.getD w ' ' == '-' &&
    name.getD (2 * w + 1) ' ' == '.' && name.getD (3 * w + 2) ' ' == '-' &&
    !(name.headD ' ' == '.')

/-- Bounds parsing (lines 109–123): field `x` is the slice
`basename[x*(filename_digits+1) : (x+1)*(filename_digits+1) - 1]` converted by
`int`. -/
def parseTileBounds (filename_digits : Nat) (name : List Char) :
    List (Option Int) :=
  (List.range 4).map fun x =>
    pyIntCore ((name.drop (x * (filename_digits + 1))).take filename_digits)

/-- Modelled from the spec words of the tile-catalog contract: a tile filename
is four zero-padded decimal fields, each exactly `filename_digits` characters,
laid out `X-X.Y-Y`. -/
def specTileName (filename_digits : Nat) (name : List Char) : Bool :=
  name.length == 4 * filename_digits + 3 &&
    name.getD filename_digits ' ' == '-' &&
    name.getD (2 * filename_digits + 1) ' ' == '.' &&
    name.getD (3 * filename_digits + 2) ' ' == '-' &&
    (List.range 4).all fun x =>
      ((name.drop (x * (filename_digits + 1))).take filename_digits).all
        Char.isDigit

/-! Section: the sink-event trace of `main` (lines 98–193). -/

/-- Events sent to the GDAL sink, in program order. -/
inductive SinkEvent where
  | create (xSize ySize bandCount : Int) (dtype : GDALType)
  | setSpatialRef (epsg : Int)
  | setGeoTransform (coeffs : List Rat)
  | setScale (band : Nat) (factor : Rat)
  | setNoData (band : Nat) (value : Rat)
  | writeRaster (band : Nat) (xOff yOff : Int) (xCount yCount : Nat)
      (data : List (List Int))

/-- Test for a geo-transform event. -/
def SinkEvent.isSetGeoTransform : SinkEvent → Bool
  | .setGeoTransform _ => true
  | _ => false

/-- Test for a pixel-write event. -/
def SinkEvent.isWriteRaster : SinkEvent → Bool
  | .writeRaster .. => true
  | _ => false

/-- Sink events of the per-tile loop (lines 164–190): decode, reshape, strip,
place, then one `WriteRaster` per band (bands are numbered from 1); a failing
tile aborts the run. -/
def tileEvents (dy : Rat) (wordsize : Nat) (signed : Bool)
    (tile_z tile_y tile_x tile_bdr : Nat) (y_size : Int) :
    List ((Int × Int × Int × Int) × List Nat) → List SinkEvent × Bool
  | [] => ([], true)
  | tb :: rest =>
    match decodeTile wordsize signed tile_z tile_y tile_x tile_bdr tb.2 with
    | none => ([], false)
    | some tile =>
      let placed := placeTile dy tb.1.1 tb.1.2.2.1 tb.1.2.2.2 y_size tile
      let writes := ((List.range tile_z).zip placed.2).map fun iz =>
        SinkEvent.writeRaster (iz.1 + 1) placed.1.1 placed.1.2 tile_x tile_y iz.2
      let restRun :=
        tileEvents dy wordsize signed tile_z tile_y tile_x tile_bdr y_size rest
      (writes ++ restRun.1, restRun.2)

/-- Sink-event trace of `main` after the index has been read (lines 101–193):
assertions on the index, canvas sizing, sink creation, spatial reference,
geo-transform, per-band setup, then the tile loop. -/
def mainTrace (projection : String)
    (dx dy known_x known_y known_lat known_lon : Rat) (wordsize : Nat)
    (signed : Bool) (tile_z tile_y tile_x tile_bdr : Nat) (scale_factor : Rat)
    (missing_value : Option Rat)
    (tiles : List ((Int × Int × Int × Int) × List Nat)) :
    List SinkEvent × Bool :=
  if projection = "regular_ll" ∧ 0 < dx then
    match canvasSize (tiles.map fun t => t.1) with
    | none => ([], false)
    | some sz =>
      match get_gdal_type (wordsize : Int) signed with
      | none => ([], false)
      | some t =>
        let gt := geoTransform known_lon known_lat dx dy known_x known_y
          (sz.2 : Rat)
        let header := [SinkEvent.create sz.1 sz.2 (tile_z : Int) t,
          SinkEvent.setSpatialRef 4326, SinkEvent.setGeoTransform gt]
        let bandSetup := (List.range tile_z).flatMap fun i =>
          SinkEvent.setScale (i + 1) scale_factor ::
            (match missing_value with
             | some mv => [SinkEvent.setNoData (i + 1) mv]
             | none => [])
        let run :=
          tileEvents dy wordsize signed tile_z tile_y tile_x tile_bdr sz.2 tiles
        (header ++ bandSetup ++ run.1, run.2)
  else ([], false)

/-! ### Arithmetic facts about the accumulate step -/

theorem lor_mul_pow_eq_add :
    ∀ (k a b : Nat), b < 2 ^ k → (a * 2 ^ k) ||| b = a * 2 ^ k + b := by
  intro k
  induction k with
  | zero =>
    intro a b hb
    interval_cases b
    simp
  | succ k ih =>
    intro a b hb
    have hbit : Nat.bit (decide (b % 2 = 1)) (b >>> 1) = b :=
      Nat.bit_decide_mod_two_eq_one_shiftRight_one b
    have hpow : (2 : Nat) ^ (k + 1) = 2 * 2 ^ k := by ring
    have h2 : a * 2 ^ (k + 1) = Nat.bit false (a * 2 ^ k) := by
      simp [Nat.bit_val]
      ring
    have hb2 : b >>> 1 < 2 ^ k := by
      rw [Nat.shiftRight_one]
      omega
    calc a * 2 ^ (k + 1) ||| b
        = Nat.bit false (a * 2 ^ k) ||| Nat.bit (decide (b % 2 = 1)) (b >>> 1) := by
          rw [hbit, ← h2]
      _ = Nat.bit (false || decide (b % 2 = 1)) ((a * 2 ^ k) ||| (b >>> 1)) :=
          Nat.lor_bit false (a * 2 ^ k) (decide (b % 2 = 1)) (b >>> 1)
      _ = Nat.bit (decide (b % 2 = 1)) (a * 2 ^ k + b >>> 1) := by
          rw [ih a _ hb2]
          simp
      _ = a * 2 ^ (k + 1) + b := by
          have hmul : a * 2 ^ (k + 1) = 2 * (a * 2 ^ k) := by
            rw [hpow]
            ring
          rcases Nat.mod_two_eq_zero_or_one b with h | h <;>
            simp [h, Nat.bit_val, Nat.shiftRight_one, hmul] <;> omega

/-- One accumulate step in arithmetic form: for a byte `b < 256`,
`(num <<< 8) ||| b = num * 256 + b`. -/
theorem accum_step_eq (num b : Nat) (hb : b < 256) :
    (num <<< 8) ||| b = num * 256 + b := by
  have h := lor_mul_pow_eq_add 8 num b (by norm_num at hb ⊢; omega)
  rw [Nat.shiftLeft_eq]
  simpa using h

/-! ### Characterisation of the decoding loops -/

/-- When the whole group lies inside the byte string, the inner loop succeeds
and computes the big-endian accumulate over the corresponding slice. -/
theorem decodeGroup_of_le (bs : List Nat) :
    ∀ (k start num : Nat), start + k ≤ bs.length →
      decodeGroup bs start num k =
        some (((bs.drop start).take k).foldl (fun n b => (n <<< 8) ||| b) num) := by
  intro k
  induction k with
  | zero =>
    intro start num _
    simp [decodeGroup]
  | succ k ih =>
    intro start num h
    have hlt : start < bs.length := by omega
    simp only [decodeGroup, List.getElem?_eq_getElem hlt]
    rw [ih (start + 1) ((num <<< 8) ||| bs[start]) (by omega),
      List.drop_eq_getElem_cons hlt, List.take_succ_cons, List.foldl_cons]

/-- When the group sticks out past the end of the byte string, the inner loop
hits an out-of-range index and aborts. -/
theorem decodeGroup_of_gt (bs : List Nat) :
    ∀ (k start num : Nat), 0 < k → bs.length < start + k →
      decodeGroup bs start num k = none := by
  intro k
  induction k with
  | zero =>
    intro start num h _
    exact absurd h (lt_irrefl 0)
  | succ k ih =>
    intro start num _ h
    by_cases hlt : start < bs.length
    · simp only [decodeGroup, List.getElem?_eq_getElem hlt]
      exact ih (start + 1) ((num <<< 8) ||| bs[start]) (by omega) (by omega)
    · have hnone : bs[start]? = none := by
        rw [List.getElem?_eq_none]
        omega
      simp only [decodeGroup, hnone]

/-- The outer loop, run over a byte string that splits into `wordsize`-sized
chunks after a prefix, decodes exactly those chunks in order. -/
theorem decodeGroups_flatten (ws : Nat) (s : Bool) :
    ∀ (chunks : List (List Nat)) (pre : List Nat),
      (∀ c ∈ chunks, c.length = ws) →
      decodeGroups (pre ++ chunks.flatten) ws s pre.length chunks.length =
        some (chunks.map fun c => signCorrect ws s (wordVal c)) := by
  intro chunks
  induction chunks with
  | nil =>
    intro pre _
    simp [decodeGroups]
  | cons c rest ih =>
    intro pre hlen
    have hc : c.length = ws := hlen c (List.mem_cons_self c rest)
    have hflat : pre ++ (c :: rest).flatten = (pre ++ c) ++ rest.flatten := by
      simp [List.flatten_cons]
    have hbound : pre.length + ws ≤ (pre ++ (c :: rest).flatten).length := by
      simp [List.flatten_cons, ← hc]
    rw [List.length_cons, decodeGroups, decodeGroup_of_le _ ws pre.length 0 hbound]
    have hslice : (((pre ++ (c :: rest).flatten).drop pre.length).take ws) = c := by
      rw [List.flatten_cons, List.drop_left, ← hc, List.take_left]
    rw [hslice]
    have hrec := ih (pre ++ c) (fun d hd => hlen d (List.mem_cons_of_mem c hd))
    have hlen2 : (pre ++ c).length = pre.length + ws := by
      simp [hc]
    rw [← hflat, hlen2] at hrec
    rw [hrec]
    rfl

/-- Helper: the flattening of uniform `ws`-sized chunks has length
`(number of chunks) * ws`. -/
theorem flatten_length_uniform (ws : Nat) :
    ∀ (chunks : List (List Nat)), (∀ c ∈ chunks, c.length = ws) →
      chunks.flatten.length = chunks.length * ws := by
  intro chunks
  induction chunks with
  | nil => simp
  | cons c rest ih =>
    intro h
    have hc : c.length = ws := h c (List.mem_cons_self c rest)
    have hr := ih (fun d hd => h d (List.mem_cons_of_mem c hd))
    simp [List.flatten_cons, hc, hr]
    ring

/-- Successful decode of a byte string made of uniform `wordsize`-sized chunks:
each chunk is decoded independently by accumulate-then-sign-correct. -/
theorem decode_flatten (ws : Nat) (hws : 0 < ws) (s : Bool)
    (chunks : List (List Nat)) (hlen : ∀ c ∈ chunks, c.length = ws) :
    decode_geogrid_binary chunks.flatten ws s =
      some (chunks.map fun c => signCorrect ws s (wordVal c)) := by
  have hflatlen : chunks.flatten.length = chunks.length * ws :=
    flatten_length_uniform ws chunks hlen
  have hfuel : (chunks.flatten.length + ws - 1) / ws = chunks.length := by
    rw [hflatlen, show chunks.length * ws + ws - 1 = (ws - 1) + chunks.length * ws from by
      omega, Nat.add_mul_div_right _ _ hws, Nat.div_eq_of_lt (by omega)]
    omega
  rw [decode_geogrid_binary, if_neg (by omega), hfuel]
  simpa using decodeGroups_flatten ws s chunks [] hlen

/-- If the fuel covers more bytes than the string has, the run aborts. -/
theorem decodeGroups_none (bs : List Nat) (ws : Nat) (s : Bool) (hws : 0 < ws) :
    ∀ (n start : Nat), 0 < n → bs.length < start + n * ws →
      decodeGroups bs ws s start n = none := by
  intro n
  induction n with
  | zero =>
    intro start h _
    exact absurd h (lt_irrefl 0)
  | succ n ih =>
    intro start _ hlen
    have hsm : (n + 1) * ws = n * ws + ws := Nat.succ_mul n ws
    by_cases hfit : start + ws ≤ bs.length
    · rcases Nat.eq_zero_or_pos n with rfl | hn
      · rw [Nat.one_mul] at hlen
        omega
      · rw [decodeGroups, decodeGroup_of_le bs ws start 0 hfit,
          ih (start + ws) hn (by omega)]
    · rw [decodeGroups, decodeGroup_of_gt bs ws start 0 hws (by omega)]

/-- When `wordsize` does not divide the byte length, the final group sticks out
past the end of the byte string and decoding aborts (Python `IndexError`). -/
theorem decode_none_of_not_dvd (bs : List Nat) (ws : Nat) (s : Bool)
    (hws : 0 < ws) (hndvd : ¬ ws ∣ bs.length) :
    decode_geogrid_binary bs ws s = none := by
  have hpos : 0 < bs.length := by
    rcases Nat.eq_zero_or_pos bs.length with h | h
    · exact absurd (h ▸ dvd_zero ws) hndvd
    · exact h
  have hmod : bs.length % ws ≠ 0 := fun h => hndvd (Nat.dvd_of_mod_eq_zero h)
  have hmlt : bs.length % ws < ws := Nat.mod_lt _ hws
  obtain ⟨q, r, hr0, hrws, hlen⟩ :
      ∃ q r, r ≠ 0 ∧ r < ws ∧ bs.length = q * ws + r :=
    ⟨bs.length / ws, bs.length % ws, hmod, hmlt, by
      rw [Nat.mul_comm]
      exact (Nat.div_add_mod bs.length ws).symm⟩
  have hsm : (q + 1) * ws = q * ws + ws := Nat.succ_mul q ws
  have hsplit : bs.length + ws - 1 = (r - 1) + (q + 1) * ws := by
    omega
  have hz : (r - 1) / ws = 0 := Nat.div_eq_of_lt (by omega)
  have hN : (bs.length + ws - 1) / ws = q + 1 := by
    rw [hsplit, Nat.add_mul_div_right _ _ hws, hz]
    omega
  rw [decode_geogrid_binary, if_neg (by omega), hN]
  exact decodeGroups_none bs ws s hws (q + 1) 0 (by omega) (by omega)

/-- A byte string whose length is `n * ws` splits into `n` uniform chunks. -/
theorem exists_uniform_chunks (ws : Nat) :
    ∀ (n : Nat) (bs : List Nat), bs.length = n * ws →
      ∃ chunks : List (List Nat),
        (∀ c ∈ chunks, c.length = ws) ∧ chunks.flatten = bs := by
  intro n
  induction n with
  | zero =>
    intro bs h
    refine ⟨[], by simp, ?_⟩
    simp at h
    simp [h]
  | succ n ih =>
    intro bs h
    have hsm : (n + 1) * ws = n * ws + ws := Nat.succ_mul n ws
    have hwsle : ws ≤ bs.length := by omega
    obtain ⟨chunks, hc, hf⟩ := ih (bs.drop ws) (by rw [List.length_drop]; omega)
    refine ⟨bs.take ws :: chunks, ?_, ?_⟩
    · intro c hcmem
      rcases List.mem_cons.1 hcmem with rfl | hmem
      · rw [List.length_take]
        omega
      · exact hc c hmem
    · simp [List.flatten_cons, hf]

/-! ### Sample values: bounds and round trip -/

/-- Accumulating bytes below 256 keeps the value below the corresponding power
of 256. -/
theorem foldl_accum_lt :
    ∀ (c : List Nat) (acc k : Nat), (∀ b ∈ c, b < 256) → acc < 256 ^ k →
      c.foldl (fun num b => (num <<< 8) ||| b) acc < 256 ^ (k + c.length) := by
  intro c
  induction c with
  | nil =>
    intro acc k _ hacc
    simpa using hacc
  | cons b rest ih =>
    intro acc k hb hacc
    rw [List.foldl_cons, accum_step_eq acc b (hb b (List.mem_cons_self b rest))]
    have hstep : acc * 256 + b < 256 ^ (k + 1) := by
      have h1 : (acc + 1) * 256 ≤ 256 ^ k * 256 :=
        Nat.mul_le_mul_right 256 hacc
      have hpow : (256 : Nat) ^ (k + 1) = 256 ^ k * 256 := by ring
      have hblt : b < 256 := hb b (List.mem_cons_self b rest)
      omega
    have hrec := ih (acc * 256 + b) (k + 1)
      (fun x hx => hb x (List.mem_cons_of_mem b hx)) hstep
    have harith : k + 1 + rest.length = k + (rest.length + 1) := by omega
    rw [harith] at hrec
    simpa using hrec

/-- The accumulated value of a word of bytes below 256 is below `256 ^ length`. -/
theorem wordVal_lt (c : List Nat) (hb : ∀ b ∈ c, b < 256) :
    wordVal c < 256 ^ c.length := by
  have := foldl_accum_lt c 0 0 hb (by norm_num)
  simpa [wordVal] using this

/-- Identity `256 ^ ws = 2 ^ (8 * ws)`. -/
theorem pow256_eq_pow2 (ws : Nat) : (256 : Nat) ^ ws = 2 ^ (8 * ws) := by
  rw [show (256 : Nat) = 2 ^ 8 from by norm_num, ← pow_mul]

/-- The sign correction maps an accumulated value below `2^(8*ws)` into the
declared word range. -/
theorem signCorrect_mem_range (ws : Nat) (hws : 0 < ws) (s : Bool) (num : Nat)
    (h : num < 256 ^ ws) : inWordRange ws s (signCorrect ws s num) := by
  have hpow : num < 2 ^ (8 * ws) := by
    rw [← pow256_eq_pow2]
    exact h
  have h1 : 8 * ws - 1 + 1 = 8 * ws := by omega
  have hhalf : (2 : Nat) ^ (8 * ws) = 2 ^ (8 * ws - 1) * 2 := by
    calc (2 : Nat) ^ (8 * ws) = 2 ^ (8 * ws - 1 + 1) := by rw [h1]
      _ = 2 ^ (8 * ws - 1) * 2 := pow_succ 2 _
  have hone : (1 : Nat) <<< (8 * ws - 1) = 2 ^ (8 * ws - 1) := by
    rw [Nat.shiftLeft_eq, Nat.one_mul]
  have hone2 : (1 : Nat) <<< (8 * ws) = 2 ^ (8 * ws) := by
    rw [Nat.shiftLeft_eq, Nat.one_mul]
  have hPcast : (((2 : Nat) ^ (8 * ws - 1) : Nat) : Int) = (2 : Int) ^ (8 * ws - 1) := by
    push_cast
    ring
  have hMcast : (((2 : Nat) ^ (8 * ws) : Nat) : Int) = (2 : Int) ^ (8 * ws) := by
    push_cast
    ring
  cases s with
  | false =>
    simp only [inWordRange, signCorrect]
    rw [if_neg (by simp), if_neg (by simp), ← hMcast]
    omega
  | true =>
    simp only [inWordRange, signCorrect]
    rw [if_pos trivial]
    by_cases hc : 2 ^ (8 * ws - 1) ≤ num
    · have hcond : (True ∧ (1 : Nat) <<< (8 * ws - 1) ≤ num) := by
        rw [hone]
        exact ⟨trivial, hc⟩
      rw [if_pos hcond, hone2, ← hPcast]
      omega
    · have hcond : ¬ (True ∧ (1 : Nat) <<< (8 * ws - 1) ≤ num) := by
        rw [hone]
        exact fun hand => hc hand.2
      rw [if_neg hcond, ← hPcast]
      omega

/-- Function `bytesOfNat` produces exactly `ws` bytes. -/
theorem bytesOfNat_length : ∀ (ws u : Nat), (bytesOfNat ws u).length = ws := by
  intro ws
  induction ws with
  | zero => intro u; rfl
  | succ ws ih =>
    intro u
    rw [bytesOfNat, List.length_cons, ih]

/-- Function `bytesOfNat` produces bytes below 256. -/
theorem bytesOfNat_lt : ∀ (ws u : Nat), ∀ b ∈ bytesOfNat ws u, b < 256 := by
  intro ws
  induction ws with
  | zero =>
    intro u b hb
    simp [bytesOfNat] at hb
  | succ ws ih =>
    intro u b hb
    rw [bytesOfNat] at hb
    rcases List.mem_cons.1 hb with rfl | hmem
    · exact Nat.mod_lt _ (by norm_num)
    · exact ih u b hmem

/-- Accumulating the big-endian bytes of `u` recovers `u` modulo `256 ^ ws`. -/
theorem foldl_bytesOfNat :
    ∀ (ws acc u : Nat),
      (bytesOfNat ws u).foldl (fun num b => (num <<< 8) ||| b) acc =
        acc * 256 ^ ws + u % 256 ^ ws := by
  intro ws
  induction ws with
  | zero =>
    intro acc u
    simp [bytesOfNat, Nat.mod_one]
  | succ ws ih =>
    intro acc u
    rw [bytesOfNat, List.foldl_cons,
      accum_step_eq acc _ (Nat.mod_lt _ (by norm_num)), ih]
    have hmod := @Nat.mod_mul (256 ^ ws) 256 u
    have hpow : (256 : Nat) ^ (ws + 1) = 256 ^ ws * 256 := by ring
    rw [hpow, hmod]
    ring

/-- The accumulated value of the big-endian bytes of `u < 256 ^ ws` is `u`. -/
theorem wordVal_bytesOfNat (ws u : Nat) (h : u < 256 ^ ws) :
    wordVal (bytesOfNat ws u) = u := by
  rw [wordVal, foldl_bytesOfNat, Nat.mod_eq_of_lt h]
  omega

/-- Decoding one encoded word recovers the original integer: sign-correcting
the accumulated value of the big-endian two's-complement bytes of `v` gives
back `v`, for `v` in the word range. -/
theorem signCorrect_encodeTwos (ws : Nat) (hws : 0 < ws) (s : Bool) (v : Int)
    (hv : inWordRange ws s v) :
    signCorrect ws s (wordVal (encodeTwos ws v)) = v := by
  have hMpos : (0 : Int) < 2 ^ (8 * ws) := by positivity
  have hu0 : 0 ≤ v % 2 ^ (8 * ws) := Int.emod_nonneg v (ne_of_gt hMpos)
  have huM : v % 2 ^ (8 * ws) < 2 ^ (8 * ws) := Int.emod_lt_of_pos v hMpos
  have hucast : (((v % 2 ^ (8 * ws)).toNat : Nat) : Int) = v % 2 ^ (8 * ws) :=
    Int.toNat_of_nonneg hu0
  have hMcast : (((2 : Nat) ^ (8 * ws) : Nat) : Int) = (2 : Int) ^ (8 * ws) := by
    push_cast
    ring
  have hPcast : (((2 : Nat) ^ (8 * ws - 1) : Nat) : Int) = (2 : Int) ^ (8 * ws - 1) := by
    push_cast
    ring
  have h18 : 8 * ws - 1 + 1 = 8 * ws := by omega
  have hhalfN : (2 : Nat) ^ (8 * ws) = 2 ^ (8 * ws - 1) * 2 := by
    calc (2 : Nat) ^ (8 * ws) = 2 ^ (8 * ws - 1 + 1) := by rw [h18]
      _ = 2 ^ (8 * ws - 1) * 2 := pow_succ 2 _
  have hult : (v % 2 ^ (8 * ws)).toNat < (2 : Nat) ^ (8 * ws) := by
    omega
  have hword : wordVal (encodeTwos ws v) = (v % 2 ^ (8 * ws)).toNat := by
    rw [encodeTwos]
    exact wordVal_bytesOfNat ws _ (by rw [pow256_eq_pow2]; exact hult)
  rw [hword]
  have hone : (1 : Nat) <<< (8 * ws - 1) = 2 ^ (8 * ws - 1) := by
    rw [Nat.shiftLeft_eq, Nat.one_mul]
  have hone2 : (1 : Nat) <<< (8 * ws) = 2 ^ (8 * ws) := by
    rw [Nat.shiftLeft_eq, Nat.one_mul]
  cases s with
  | false =>
    rw [inWordRange] at hv
    rw [if_neg (by simp)] at hv
    have hvmod : v % 2 ^ (8 * ws) = v := Int.emod_eq_of_lt hv.1 hv.2
    simp only [signCorrect]
    rw [if_neg (by simp)]
    omega
  | true =>
    rw [inWordRange] at hv
    rw [if_pos rfl] at hv
    rcases le_or_lt 0 v with hv0 | hv0
    · have hvltM : v < 2 ^ (8 * ws) := by
        have : (2 : Int) ^ (8 * ws - 1) ≤ 2 ^ (8 * ws) := by
          apply pow_le_pow_right (by norm_num)
          omega
        omega
      have hvmod : v % 2 ^ (8 * ws) = v := Int.emod_eq_of_lt hv0 hvltM
      have hucond : ¬ (2 : Nat) ^ (8 * ws - 1) ≤ (v % 2 ^ (8 * ws)).toNat := by
        omega
      simp only [signCorrect]
      rw [if_neg (by rw [hone]; exact fun hand => hucond hand.2)]
      omega
    · have hPpos : (0 : Int) < 2 ^ (8 * ws - 1) := by positivity
      have hIhalf : (2 : Int) ^ (8 * ws) = 2 ^ (8 * ws - 1) * 2 := by
        rw [← hMcast, ← hPcast]
        exact_mod_cast hhalfN
      have hvmod : v % 2 ^ (8 * ws) = v + 2 ^ (8 * ws) := by
        have h1 : (v + 2 ^ (8 * ws) * 1) % 2 ^ (8 * ws) = v % 2 ^ (8 * ws) :=
          Int.add_mul_emod_self_left v (2 ^ (8 * ws)) 1
        have h2 : 0 ≤ v + 2 ^ (8 * ws) := by
          have := hv.1
          omega
        have h3 : v + 2 ^ (8 * ws) < 2 ^ (8 * ws) := by
          omega
        have h4 := Int.emod_eq_of_lt h2 h3
        rw [show v + (2 : Int) ^ (8 * ws) * 1 = v + 2 ^ (8 * ws) from by ring] at h1
        omega
      have hucond : (2 : Nat) ^ (8 * ws - 1) ≤ (v % 2 ^ (8 * ws)).toNat := by
        have hPpos2 := hPpos
        omega
      simp only [signCorrect]
      rw [if_pos (show True ∧ (1 : Nat) <<< (8 * ws - 1) ≤ (v % 2 ^ (8 * ws)).toNat from by
        rw [hone]
        exact ⟨trivial, hucond⟩), hone2]
      omega

/-- Claim C1.  For every word size 1–4, signedness, and list of integers in the
corresponding word range, decoding the concatenation of their big-endian
two's-complement encodings with `decode_geogrid_binary` returns exactly that
list: the decoder consumes consecutive `wordsize`-byte groups, accumulates each
most-significant-first by left-shift-by-8 and OR, applies the two's-complement
sign correction, and is the exact inverse of big-endian two's-complement
encoding. -/
theorem c1_decode_inverts_big_endian_encoding (ws : Nat)
    (h1 : 1 ≤ ws) (h4 : ws ≤ 4) (s : Bool) (vs : List Int)
    (hvs : ∀ v ∈ vs, inWordRange ws s v) :
    decode_geogrid_binary ((vs.map (encodeTwos ws)).flatten) ws s = some vs := by
  have hlen : ∀ c ∈ vs.map (encodeTwos ws), c.length = ws := by
    intro c hc
    rcases List.mem_map.1 hc with ⟨v, _, rfl⟩
    rw [encodeTwos]
    exact bytesOfNat_length ws _
  rw [decode_flatten ws (by omega) s _ hlen, List.map_map]
  have hmap : vs.map (fun v => signCorrect ws s (wordVal (encodeTwos ws v))) = vs := by
    rw [show vs = vs.map id from (List.map_id vs).symm]
    rw [List.map_map]
    apply List.map_congr_left
    intro v hv
    simp only [Function.comp, id]
    exact signCorrect_encodeTwos ws (by omega) s v (hvs v (by simpa using hv))
  rw [show ((fun c => signCorrect ws s (wordVal c)) ∘ encodeTwos ws)
      = fun v => signCorrect ws s (wordVal (encodeTwos ws v)) from rfl, hmap]

/-- Witness for C1 at the spec examples: `wordsize = 2`, `signed = true`,
bytes `80 00 / FF FF / 7F FF` decode to `-32768, -1, 32767`. -/
theorem c1_witness :
    decode_geogrid_binary [128, 0, 255, 255, 127, 255] 2 true =
      some [-32768, -1, 32767] := by
  have henc : ((([-32768, -1, 32767] : List Int).map (encodeTwos 2)).flatten)
      = [128, 0, 255, 255, 127, 255] := by decide
  have hvs : ∀ v ∈ ([-32768, -1, 32767] : List Int), inWordRange 2 true v := by
    intro v hv
    fin_cases hv <;> norm_num [inWordRange]
  have h := c1_decode_inverts_big_endian_encoding 2 (by norm_num) (by norm_num)
    true [-32768, -1, 32767] hvs
  rw [henc] at h
  exact h

/-- Claim C10.  For every byte string (entries below 256) whose length is an
exact multiple of `wordsize` (1–4), decoding succeeds, produces exactly
`length / wordsize` samples, and every sample lies in `[0, 2^(8*wordsize))`
when unsigned and in `[-2^(8*wordsize-1), 2^(8*wordsize-1))` when signed. -/
theorem c10_decode_sample_count_and_range (bs : List Nat) (ws : Nat) (s : Bool)
    (h1 : 1 ≤ ws) (h4 : ws ≤ 4) (hbytes : ∀ b ∈ bs, b < 256)
    (hdvd : ws ∣ bs.length) :
    ∃ out, decode_geogrid_binary bs ws s = some out ∧
      out.length = bs.length / ws ∧ ∀ v ∈ out, inWordRange ws s v := by
  obtain ⟨n, hn⟩ := hdvd
  obtain ⟨chunks, hclen, hcflat⟩ := exists_uniform_chunks ws n bs (by
    rw [hn]
    ring)
  have hfl : chunks.flatten.length = chunks.length * ws :=
    flatten_length_uniform ws chunks hclen
  have hlendiv : chunks.length = bs.length / ws := by
    rw [← hcflat, hfl, Nat.mul_div_cancel _ (by omega)]
  refine ⟨chunks.map fun c => signCorrect ws s (wordVal c), ?_, ?_, ?_⟩
  · rw [← hcflat]
    exact decode_flatten ws (by omega) s chunks hclen
  · rw [List.length_map]
    exact hlendiv
  · intro v hv
    rcases List.mem_map.1 hv with ⟨c, hc, rfl⟩
    refine signCorrect_mem_range ws (by omega) s (wordVal c) ?_
    have hcl : c.length = ws := hclen c hc
    have hb : ∀ b ∈ c, b < 256 := by
      intro b hbmem
      refine hbytes b ?_
      rw [← hcflat]
      exact List.mem_flatten.2 ⟨c, hc, hbmem⟩
    have := wordVal_lt c hb
    rw [hcl] at this
    exact this

/-- Witness for C10 at `bs = [1, 2, 3, 4]`, `wordsize = 2`, unsigned. -/
theorem c10_witness :
    ∃ out, decode_geogrid_binary [1, 2, 3, 4] 2 false = some out ∧
      out.length = ([1, 2, 3, 4] : List Nat).length / 2 ∧
      ∀ v ∈ out, inWordRange 2 false v :=
  c10_decode_sample_count_and_range [1, 2, 3, 4] 2 false (by norm_num)
    (by norm_num) (by decide) (by decide)

/-- Claim C5.  A tile whose byte length either is not a multiple of `wordsize`
or does not equal `tile_z * (tile_y + 2*tile_bdr) * (tile_x + 2*tile_bdr) *
wordsize` makes the decode-reshape pipeline fail (the run aborts: the source
raises from out-of-range indexing or from `reshape`; the spec names this
failure `TruncatedTileError`). -/
theorem c5_truncated_tile_fails (bs : List Nat) (ws : Nat) (s : Bool)
    (tile_z tile_y tile_x tile_bdr : Nat) (h1 : 1 ≤ ws) (h4 : ws ≤ 4)
    (hbad : ¬ ws ∣ bs.length ∨
      bs.length ≠ tile_z * (tile_y + 2 * tile_bdr) * (tile_x + 2 * tile_bdr) * ws) :
    decodeTile ws s tile_z tile_y tile_x tile_bdr bs = none := by
  by_cases hdvd : ws ∣ bs.length
  · have hne : bs.length ≠
        tile_z * (tile_y + 2 * tile_bdr) * (tile_x + 2 * tile_bdr) * ws := by
      rcases hbad with h | h
      · exact absurd hdvd h
      · exact h
    obtain ⟨n, hn⟩ := hdvd
    obtain ⟨chunks, hclen, hcflat⟩ := exists_uniform_chunks ws n bs (by
      rw [hn]
      ring)
    have hfl : chunks.flatten.length = chunks.length * ws :=
      flatten_length_uniform ws chunks hclen
    rw [decodeTile, ← hcflat, decode_flatten ws (by omega) s chunks hclen]
    have hcount : (chunks.map fun c => signCorrect ws s (wordVal c)).length ≠
        tile_z * (tile_y + 2 * tile_bdr) * (tile_x + 2 * tile_bdr) := by
      rw [List.length_map]
      intro heq
      apply hne
      rw [← hcflat, hfl, heq]
    simp only [Option.some_bind, reshape3]
    rw [if_neg hcount]
    rfl
  · rw [decodeTile, decode_none_of_not_dvd bs ws s (by omega) hdvd]
    rfl

/-- Witness for C5: three bytes with `wordsize = 2` (not a multiple) fail. -/
theorem c5_witness : decodeTile 2 false 1 2 2 0 [1, 2, 3] = none :=
  c5_truncated_tile_fails [1, 2, 3] 2 false 1 2 2 0 (by norm_num) (by norm_num)
    (Or.inl (by decide))

/-! Section: reshape and crop entry formulas -/

/-- Helper: `getD` on a map over `List.range`, inside bounds. -/
theorem getD_map_range {β : Type} (n : Nat) (f : Nat → β) (d : β) (i : Nat)
    (h : i < n) : ((List.range n).map f).getD i d = f i := by
  have h2 : i < ((List.range n).map f).length := by simpa using h
  rw [List.getD_eq_getElem _ _ h2, List.getElem_map, List.getElem_range]

/-- Helper: `getD` through `map`, with arbitrary defaults, inside bounds. -/
theorem getD_map {α β : Type} (f : α → β) (l : List α) (i : Nat) (d : β)
    (d2 : α) (h : i < l.length) : (l.map f).getD i d = f (l.getD i d2) := by
  have h2 : i < (l.map f).length := by simpa using h
  rw [List.getD_eq_getElem _ _ h2, List.getD_eq_getElem _ _ h, List.getElem_map]

/-- Length of the slice `l[b:-b]`. -/
theorem sliceTrim_length {α : Type} (b : Nat) (l : List α) :
    (sliceTrim b l).length = l.length - 2 * b := by
  rw [sliceTrim, List.length_take, List.length_drop]
  omega

/-- Entries of the slice `l[b:-b]`: element `i` is element `b + i` of `l`. -/
theorem sliceTrim_getD {α : Type} (b i : Nat) (l : List α) (d : α)
    (h : i < l.length - 2 * b) :
    (sliceTrim b l).getD i d = l.getD (b + i) d := by
  have h1 : i < (sliceTrim b l).length := by
    rw [sliceTrim_length]
    exact h
  have h2 : b + i < l.length := by omega
  rw [List.getD_eq_getElem _ _ h1, List.getD_eq_getElem _ _ h2]
  simp only [sliceTrim]
  simp [List.getElem_take, List.getElem_drop]

/-- Claim C2.  For every decoded flat sample list of the declared size, the
pipeline reshapes it to `(tile_z, tile_y + 2*tile_bdr, tile_x + 2*tile_bdr)`
and, when `tile_bdr > 0`, crops `tile_bdr` cells from every edge of the row and
column dimensions while leaving the band dimension untouched: the result has
shape `(tile_z, tile_y, tile_x)` and entry `[i][j][k]` is flat element
`(i*(tile_y+2*tile_bdr) + (j+tile_bdr)) * (tile_x+2*tile_bdr) + (k+tile_bdr)`,
independent of border content. -/
theorem c2_reshape_and_crop (flat : List Int)
    (tile_z tile_y tile_x tile_bdr : Nat)
    (hlen : flat.length =
      tile_z * (tile_y + 2 * tile_bdr) * (tile_x + 2 * tile_bdr)) :
    ∃ t, (reshape3 tile_z (tile_y + 2 * tile_bdr) (tile_x + 2 * tile_bdr)
        flat).map (stripBorder tile_bdr) = some t ∧
      t.length = tile_z ∧
      (∀ i < tile_z, (t.getD i []).length = tile_y ∧
        ∀ j < tile_y, ((t.getD i []).getD j []).length = tile_x) ∧
      (∀ i j k, i < tile_z → j < tile_y → k < tile_x →
        ((t.getD i []).getD j []).getD k 0 =
          flat.getD ((i * (tile_y + 2 * tile_bdr) + (j + tile_bdr)) *
            (tile_x + 2 * tile_bdr) + (k + tile_bdr)) 0) := by
  set r := tile_y + 2 * tile_bdr with hr
  set c := tile_x + 2 * tile_bdr with hc
  rw [reshape3, if_pos hlen, Option.map_some']
  by_cases hb : 0 < tile_bdr
  · refine ⟨_, rfl, ?_, ?_, ?_⟩
    · simp [stripBorder, hb]
    · intro i hi
      rw [stripBorder, if_pos hb, List.map_map, getD_map_range _ _ _ _ hi]
      simp only [Function.comp]
      have hrow : (sliceTrim tile_bdr ((List.range r).map fun j =>
          (List.range c).map fun k =>
            flat.getD ((i * r + j) * c + k) 0)).length = tile_y := by
        rw [sliceTrim_length, List.length_map, List.length_range]
        omega
      constructor
      · rw [List.length_map, hrow]
      · intro j hj
        rw [getD_map (sliceTrim tile_bdr) _ j [] [] (by rw [hrow]; exact hj),
          sliceTrim_getD _ _ _ _ (by
            rw [List.length_map, List.length_range]
            omega),
          getD_map_range _ _ _ _ (by omega : tile_bdr + j < r)]
        rw [sliceTrim_length, List.length_map, List.length_range]
        omega
    · intro i j k hi hj hk
      rw [stripBorder, if_pos hb, List.map_map, getD_map_range _ _ _ _ hi]
      simp only [Function.comp]
      have hrow : (sliceTrim tile_bdr ((List.range r).map fun j =>
          (List.range c).map fun k =>
            flat.getD ((i * r + j) * c + k) 0)).length = tile_y := by
        rw [sliceTrim_length, List.length_map, List.length_range]
        omega
      rw [getD_map (sliceTrim tile_bdr) _ j [] [] (by rw [hrow]; exact hj),
        sliceTrim_getD tile_bdr j _ _ (by
          rw [List.length_map, List.length_range]
          omega),
        getD_map_range _ _ _ _ (by omega : tile_bdr + j < r),
        sliceTrim_getD tile_bdr k _ _ (by
          rw [List.length_map, List.length_range]
          omega),
        getD_map_range _ _ _ _ (by omega : tile_bdr + k < c)]
      congr 1
      ring
  · have hbdr : tile_bdr = 0 := by omega
    refine ⟨_, rfl, ?_, ?_, ?_⟩
    · simp [stripBorder, hb]
    · intro i hi
      rw [stripBorder, if_neg hb, getD_map_range _ _ _ _ hi]
      constructor
      · rw [List.length_map, List.length_range]
        omega
      · intro j hj
        rw [getD_map_range _ _ _ _ (by omega : j < r), List.length_map,
          List.length_range]
        omega
    · intro i j k hi hj hk
      rw [stripBorder, if_neg hb, getD_map_range _ _ _ _ hi,
        getD_map_range _ _ _ _ (by omega : j < r),
        getD_map_range _ _ _ _ (by omega : k < c)]
      congr 1
      rw [hbdr]
      ring

/-- Witness for C2 at the spec scenario: interior `2 x 2`, `tile_bdr = 1`,
encoded `4 x 4`, single band: the pipeline keeps exactly the centre block. -/
theorem c2_witness :
    (∃ t, (reshape3 1 (2 + 2 * 1) (2 + 2 * 1)
        [0, 1, 2, 3, 4, 5, 6, 7, 8, 9, 10, 11, 12, 13, 14, 15]).map
          (stripBorder 1) = some t ∧
      t.length = 1 ∧
      (∀ i < 1, (t.getD i []).length = 2 ∧
        ∀ j < 2, ((t.getD i []).getD j []).length = 2) ∧
      (∀ i j k, i < 1 → j < 2 → k < 2 →
        ((t.getD i []).getD j []).getD k 0 =
          ([0, 1, 2, 3, 4, 5, 6, 7, 8, 9, 10, 11, 12, 13, 14, 15] :
            List Int).getD ((i * (2 + 2 * 1) + (j + 1)) * (2 + 2 * 1) + (k + 1)) 0)) ∧
    (reshape3 1 4 4 [0, 1, 2, 3, 4, 5, 6, 7, 8, 9, 10, 11, 12, 13, 14, 15]).map
        (stripBorder 1) = some [[[5, 6], [9, 10]]] :=
  ⟨c2_reshape_and_crop
      [0, 1, 2, 3, 4, 5, 6, 7, 8, 9, 10, 11, 12, 13, 14, 15] 1 2 2 1
      (by decide), by decide⟩

/-- Claim C3.  For every tile with bounds `(x_start, x_end, y_start, y_end)`:
when `dy < 0` (top-to-bottom) the placement offset is
`(x_start - 1, y_start - 1)` and the rows are not reversed; when `dy ≥ 0`
(bottom-to-top) the offset is `(x_start - 1, y_size - y_end)` and the row order
of every band is reversed before writing. -/
theorem c3_placement_offsets (dy : Rat) (x_start y_start y_end y_size : Int)
    (tile : List (List (List Int))) :
    (dy < 0 →
      placeTile dy x_start y_start y_end y_size tile =
        ((x_start - 1, y_start - 1), tile)) ∧
    (0 ≤ dy →
      placeTile dy x_start y_start y_end y_size tile =
        ((x_start - 1, y_size - y_end), tile.map fun band => band.reverse)) := by
  constructor
  · intro h
    rw [placeTile, if_pos h]
  · intro h
    rw [placeTile, if_neg (not_lt.2 h)]

/-- Witness for C3 at the spec examples: `dy = -0.1`, bounds `(1,3,1,3)` place
at `(0, 0)` unreversed; `dy = 0.1`, `y_size = 9`, bounds `(1,3,7,9)` place at
`(0, 0)` with rows reversed. -/
theorem c3_witness :
    placeTile (-1 / 10) 1 1 3 9 [[[1, 2], [3, 4]]] =
      ((0, 0), [[[1, 2], [3, 4]]]) ∧
    placeTile (1 / 10) 1 7 9 9 [[[1, 2], [3, 4]]] =
      ((0, 0), [[[3, 4], [1, 2]]]) := by
  constructor
  · have h := (c3_placement_offsets (-1 / 10) 1 1 3 9 [[[1, 2], [3, 4]]]).1
      (by norm_num)
    rw [h]
    decide
  · have h := (c3_placement_offsets (1 / 10) 1 7 9 9 [[[1, 2], [3, 4]]]).2
      (by norm_num)
    rw [h]
    decide

/-- Helper for C8: what the canvas fold computes, relative to its accumulator. -/
theorem canvas_fold_spec :
    ∀ (l : List (Int × Int × Int × Int)) (acc : Int × Int),
      (∀ t ∈ l,
        t.2.1 ≤ (l.foldl (fun a t => (max a.1 t.2.1, max a.2 t.2.2.2)) acc).1 ∧
        t.2.2.2 ≤ (l.foldl (fun a t => (max a.1 t.2.1, max a.2 t.2.2.2)) acc).2) ∧
      acc.1 ≤ (l.foldl (fun a t => (max a.1 t.2.1, max a.2 t.2.2.2)) acc).1 ∧
      acc.2 ≤ (l.foldl (fun a t => (max a.1 t.2.1, max a.2 t.2.2.2)) acc).2 ∧
      ((l.foldl (fun a t => (max a.1 t.2.1, max a.2 t.2.2.2)) acc).1 = acc.1 ∨
        ∃ t ∈ l, (l.foldl (fun a t => (max a.1 t.2.1, max a.2 t.2.2.2)) acc).1 = t.2.1) ∧
      ((l.foldl (fun a t => (max a.1 t.2.1, max a.2 t.2.2.2)) acc).2 = acc.2 ∨
        ∃ t ∈ l, (l.foldl (fun a t => (max a.1 t.2.1, max a.2 t.2.2.2)) acc).2 = t.2.2.2) := by
  intro l
  induction l with
  | nil =>
    intro acc
    simp
  | cons t l ih =>
    intro acc
    simp only [List.foldl_cons]
    obtain ⟨hall, h1, h2, h3, h4⟩ := ih (max acc.1 t.2.1, max acc.2 t.2.2.2)
    refine ⟨?_, ?_, ?_, ?_, ?_⟩
    · intro u hu
      rcases List.mem_cons.1 hu with rfl | hu
      · exact ⟨le_trans (le_max_right _ _) h1, le_trans (le_max_right _ _) h2⟩
      · exact hall u hu
    · exact le_trans (le_max_left _ _) h1
    · exact le_trans (le_max_left _ _) h2
    · rcases h3 with heq | ⟨u, hu, hueq⟩
      · rcases max_choice acc.1 t.2.1 with hm | hm
        · left
          rw [heq, hm]
        · right
          exact ⟨t, List.mem_cons_self t l, by rw [heq, hm]⟩
      · right
        exact ⟨u, List.mem_cons_of_mem t hu, hueq⟩
    · rcases h4 with heq | ⟨u, hu, hueq⟩
      · rcases max_choice acc.2 t.2.2.2 with hm | hm
        · left
          rw [heq, hm]
        · right
          exact ⟨t, List.mem_cons_self t l, by rw [heq, hm]⟩
      · right
        exact ⟨u, List.mem_cons_of_mem t hu, hueq⟩

/-- Claim C8.  For every non-empty tile list, the canvas size is
`x_size = max x_end` and `y_size = max y_end` over all tiles: the computed pair
bounds every tile and each component is attained by some tile. -/
theorem c8_canvas_is_max (b0 : Int × Int × Int × Int)
    (rest : List (Int × Int × Int × Int)) :
    ∃ xy, canvasSize (b0 :: rest) = some xy ∧
      (∀ t ∈ b0 :: rest, t.2.1 ≤ xy.1 ∧ t.2.2.2 ≤ xy.2) ∧
      (∃ t ∈ b0 :: rest, t.2.1 = xy.1) ∧
      (∃ t ∈ b0 :: rest, t.2.2.2 = xy.2) := by
  obtain ⟨hall, h1, h2, h3, h4⟩ := canvas_fold_spec rest (b0.2.1, b0.2.2.2)
  refine ⟨_, rfl, ?_, ?_, ?_⟩
  · intro t ht
    rcases List.mem_cons.1 ht with rfl | ht
    · exact ⟨h1, h2⟩
    · exact hall t ht
  · rcases h3 with heq | ⟨u, hu, hueq⟩
    · exact ⟨b0, List.mem_cons_self b0 rest, heq.symm⟩
    · exact ⟨u, List.mem_cons_of_mem b0 hu, hueq.symm⟩
  · rcases h4 with heq | ⟨u, hu, hueq⟩
    · exact ⟨b0, List.mem_cons_self b0 rest, heq.symm⟩
    · exact ⟨u, List.mem_cons_of_mem b0 hu, hueq.symm⟩

/-- Witness for C8 at the spec example: bounds `(1,3,1,3)` and `(4,6,1,3)`
yield canvas `(6, 3)`. -/
theorem c8_witness :
    (∃ xy, canvasSize [(1, 3, 1, 3), (4, 6, 1, 3)] = some xy ∧
      (∀ t ∈ [((1 : Int), (3 : Int), (1 : Int), (3 : Int)), (4, 6, 1, 3)],
        t.2.1 ≤ xy.1 ∧ t.2.2.2 ≤ xy.2) ∧
      (∃ t ∈ [((1 : Int), (3 : Int), (1 : Int), (3 : Int)), (4, 6, 1, 3)],
        t.2.1 = xy.1) ∧
      (∃ t ∈ [((1 : Int), (3 : Int), (1 : Int), (3 : Int)), (4, 6, 1, 3)],
        t.2.2.2 = xy.2)) ∧
    canvasSize [(1, 3, 1, 3), (4, 6, 1, 3)] = some (6, 3) :=
  ⟨c8_canvas_is_max (1, 3, 1, 3) [(4, 6, 1, 3)], by decide⟩

/-- Helper for C9: a type holds the whole word range as soon as its endpoints
are inside the representable range. -/
theorem holdsWord_of_endpoints (t : GDALType) (ws : Nat) (s : Bool)
    (hmin : if s = true then t.minVal ≤ -(2 : Int) ^ (8 * ws - 1)
      else t.minVal ≤ 0)
    (hmax : if s = true then (2 : Int) ^ (8 * ws - 1) - 1 ≤ t.maxVal
      else (2 : Int) ^ (8 * ws) - 1 ≤ t.maxVal) :
    holdsWord t ws s := by
  intro v hv
  cases s with
  | false =>
    rw [inWordRange, if_neg (by simp)] at hv
    rw [if_neg (by simp)] at hmin
    rw [if_neg (by simp)] at hmax
    omega
  | true =>
    rw [inWordRange, if_pos rfl] at hv
    rw [if_pos rfl] at hmin
    rw [if_pos rfl] at hmax
    omega

/-- Helper for C9: conversely, a type that holds the whole word range must
contain its endpoints. -/
theorem holdsWord_endpoints (t : GDALType) (ws : Nat) (s : Bool)
    (h : holdsWord t ws s) :
    (if s = true then
      t.minVal ≤ -(2 : Int) ^ (8 * ws - 1) ∧ (2 : Int) ^ (8 * ws - 1) - 1 ≤ t.maxVal
    else t.minVal ≤ 0 ∧ (2 : Int) ^ (8 * ws) - 1 ≤ t.maxVal) := by
  cases s with
  | false =>
    rw [if_neg (by simp)]
    have hpos : (1 : Int) ≤ 2 ^ (8 * ws) := one_le_pow₀ (by norm_num)
    have hlo := h 0 (by rw [inWordRange, if_neg (by simp)]; omega)
    have hhi := h ((2 : Int) ^ (8 * ws) - 1)
      (by rw [inWordRange, if_neg (by simp)]; omega)
    omega
  | true =>
    rw [if_pos rfl]
    have hpos : (1 : Int) ≤ 2 ^ (8 * ws - 1) := one_le_pow₀ (by norm_num)
    have hlo := h (-(2 : Int) ^ (8 * ws - 1))
      (by rw [inWordRange, if_pos rfl]; omega)
    have hhi := h ((2 : Int) ^ (8 * ws - 1) - 1)
      (by rw [inWordRange, if_pos rfl]; omega)
    omega

/-- Claim C9.  For every `wordsize` 1–4 and both signedness values, the lookup
returns the narrowest GDAL integer type of the requested signedness that holds
`wordsize` bytes: the chosen type has the requested signedness, holds the whole
word range, and any type of that signedness holding the word range is at least
as wide. -/
theorem c9_gdal_type_narrowest (ws : Nat) (s : Bool) (h1 : 1 ≤ ws)
    (h4 : ws ≤ 4) :
    ∃ t, get_gdal_type (ws : Int) s = some t ∧ t.isSigned = s ∧
      holdsWord t ws s ∧
      ∀ u : GDALType, u.isSigned = s → holdsWord u ws s → t.bits ≤ u.bits := by
  interval_cases ws <;> cases s <;>
    [refine ⟨GDALType.gdtByte, by decide, by decide, ?_, ?_⟩;
     refine ⟨GDALType.gdtInt16, by decide, by decide, ?_, ?_⟩;
     refine ⟨GDALType.gdtUInt16, by decide, by decide, ?_, ?_⟩;
     refine ⟨GDALType.gdtInt16, by decide, by decide, ?_, ?_⟩;
     refine ⟨GDALType.gdtUInt32, by decide, by decide, ?_, ?_⟩;
     refine ⟨GDALType.gdtInt32, by decide, by decide, ?_, ?_⟩;
     refine ⟨GDALType.gdtUInt32, by decide, by decide, ?_, ?_⟩;
     refine ⟨GDALType.gdtInt32, by decide, by decide, ?_, ?_⟩] <;>
    first
      | (apply holdsWord_of_endpoints <;>
          norm_num [GDALType.minVal, GDALType.maxVal])
      | (intro u hsig hhold
         have hend := holdsWord_endpoints u _ _ hhold
         cases u <;>
           norm_num [GDALType.minVal, GDALType.maxVal, GDALType.bits,
             GDALType.isSigned] at hsig hend ⊢)

/-- Witness for C9 at `wordsize = 3`, signed: the chosen type is the narrowest
signed type holding three bytes. -/
theorem c9_witness :
    ∃ t, get_gdal_type ((3 : Nat) : Int) true = some t ∧ t.isSigned = true ∧
      holdsWord t 3 true ∧
      ∀ u : GDALType, u.isSigned = true → holdsWord u 3 true →
        t.bits ≤ u.bits :=
  c9_gdal_type_narrowest 3 true (by norm_num) (by norm_num)

/-- Helper: a key that is not in the dict looks up to `none`. -/
theorem dictGet_eq_none : ∀ (d : List (String × Value)) (k : String),
    dictContains d k = false → dictGet d k = none := by
  intro d k
  induction d with
  | nil =>
    intro _
    rfl
  | cons kv rest ih =>
    intro h
    rw [dictContains, List.any_cons, Bool.or_eq_false_iff] at h
    rw [dictGet, List.find?_cons, h.1]
    exact ih (by rw [dictContains]; exact h.2)

/-- Helper: a successful lookup means the key is in the dict. -/
theorem dictContains_of_get_some : ∀ (d : List (String × Value)) (k : String)
    (v : Value), dictGet d k = some v → dictContains d k = true := by
  intro d k v
  induction d with
  | nil =>
    intro h
    exact absurd h (by rw [dictGet]; simp)
  | cons kv rest ih =>
    intro h
    rw [dictContains, List.any_cons]
    rw [dictGet, List.find?_cons] at h
    cases hkv : kv.1 == k with
    | true =>
      rfl
    | false =>
      rw [hkv] at h
      rw [Bool.false_or]
      exact ih h

/-- Helper: looking up a key right after setting it returns the new value. -/
theorem dictGet_dictSet_self : ∀ (d : List (String × Value)) (k : String)
    (v : Value), dictGet (dictSet d k v) k = some v := by
  intro d k v
  induction d with
  | nil =>
    simp [dictSet, dictGet]
  | cons kv rest ih =>
    by_cases hk : kv.1 = k
    · simp [dictSet, hk, dictGet]
    · rw [dictSet, if_neg hk, dictGet, List.find?_cons,
        show (kv.1 == k) = false from by simpa using hk]
      exact ih

/-- Claim C6.  Parsing an index in which `tile_z_start` appears without
`tile_z_end` (or vice versa) fails — `tile_z` is never silently defaulted —
and when both appear with integer values `a` and `b`, the parsed index has
`tile_z = b - a + 1`. -/
theorem c6_tile_z_pairing (lines : List (List Char)) (d : List (String × Value))
    (hparse : parseLines lines defaultIndex = some d) :
    ((dictContains d ("tile_z_start") ≠ dictContains d ("tile_z_end")) →
      read_index lines = none) ∧
    (∀ a b : Int, dictGet d ("tile_z_start") = some (Value.intV a) →
      dictGet d ("tile_z_end") = some (Value.intV b) →
      ∃ d2, read_index lines = some d2 ∧
        dictGet d2 ("tile_z") = some (Value.intV (b - a + 1))) := by
  have hread : read_index lines = applyTileZ d := by
    rw [read_index, hparse, Option.some_bind]
  constructor
  · intro hne
    rw [hread, applyTileZ]
    cases hs : dictContains d ("tile_z_start") <;>
      cases he : dictContains d ("tile_z_end")
    · exact absurd (hs.trans he.symm) hne
    · rw [if_pos (by simp), dictGet_eq_none d _ hs]
    · rw [if_pos (by simp), dictGet_eq_none d _ he]
      cases dictGet d ("tile_z_start") with
      | none => rfl
      | some v => cases v <;> rfl
    · exact absurd (hs.trans he.symm) hne
  · intro a b ha hb
    rw [hread, applyTileZ,
      if_pos (by rw [dictContains_of_get_some d _ _ ha, Bool.true_or]), ha, hb]
    exact ⟨_, rfl, dictGet_dictSet_self d _ _⟩

/-- Witness for C6: an index with only `tile_z_start` fails; one with both
fields yields `tile_z = 5 - 2 + 1 = 4`. -/
theorem c6_witness :
    read_index ["tile_z_start = 2".data] = none ∧
    ∃ d2, read_index ["tile_z_start = 2".data, "tile_z_end = 5".data] = some d2 ∧
      dictGet d2 ("tile_z") = some (Value.intV 4) := by
  constructor
  · exact (c6_tile_z_pairing ["tile_z_start = 2".data]
      (dictSet defaultIndex ("tile_z_start") (Value.intV 2)) (by decide)).1
      (by decide)
  · have h := (c6_tile_z_pairing ["tile_z_start = 2".data, "tile_z_end = 5".data]
      (dictSet (dictSet defaultIndex ("tile_z_start") (Value.intV 2))
        ("tile_z_end") (Value.intV 5)) (by decide)).2
      2 5 (by decide) (by decide)
    simpa using h

/-- Counterexample for C7: for `filename_digits = 4`, the name
`0001-0002.0001-0002` consists of four zero-padded 4-digit decimal fields laid
out `X-X.Y-Y` (the spec's description of an enumerated tile), yet the glob the
source uses (width 6 for any `filename_digits ≠ 5`) does not match it. -/
theorem c7_counterexample :
    specTileName 4 ("0001-0002.0001-0002".data) = true ∧
    matchesTilePattern 4 ("0001-0002.0001-0002".data) = false := by
  decide

/-- Claim C7, amended.  The catalog's glob uses field width 5 exactly when
`filename_digits = 5` and width 6 for every other value; a basename matches
exactly when it has length `4*w + 3` with `-`, `.`, `-` at positions `w`,
`2w+1`, `3w+2` (each field being arbitrary characters, not necessarily
decimal, with no leading dot); the four bounds are parsed from consecutive
slices of width `filename_digits + 1`, the separator being the dropped extra
character. -/
theorem c7_glob_width_and_slices (filename_digits : Nat) (name : List Char) :
    (matchesTilePattern filename_digits name = true ↔
      (name.length = 4 * globWidth filename_digits + 3 ∧
        name.getD (globWidth filename_digits) ' ' = '-' ∧
        name.getD (2 * globWidth filename_digits + 1) ' ' = '.' ∧
        name.getD (3 * globWidth filename_digits + 2) ' ' = '-' ∧
        name.headD ' ' ≠ '.')) ∧
    (∀ f0 f1 f2 f3 : List Char,
      f0.length = filename_digits → f1.length = filename_digits →
      f2.length = filename_digits → f3.length = filename_digits →
      parseTileBounds filename_digits
          (f0 ++ '-' :: f1 ++ '.' :: f2 ++ '-' :: f3) =
        [pyIntCore f0, pyIntCore f1, pyIntCore f2, pyIntCore f3]) := by
  constructor
  · simp [matchesTilePattern, and_assoc]
  · intro f0 f1 f2 f3 h0 h1 h2 h3
    have e0 : f0 ++ '-' :: f1 ++ '.' :: f2 ++ '-' :: f3 =
        f0 ++ ('-' :: (f1 ++ ('.' :: (f2 ++ ('-' :: f3))))) := by
      simp
    have e1 : f0 ++ '-' :: f1 ++ '.' :: f2 ++ '-' :: f3 =
        (f0 ++ ['-']) ++ (f1 ++ ('.' :: (f2 ++ ('-' :: f3)))) := by
      simp
    have e2 : f0 ++ '-' :: f1 ++ '.' :: f2 ++ '-' :: f3 =
        ((f0 ++ ['-']) ++ (f1 ++ ['.'])) ++ (f2 ++ ('-' :: f3)) := by
      simp
    have e3 : f0 ++ '-' :: f1 ++ '.' :: f2 ++ '-' :: f3 =
        (((f0 ++ ['-']) ++ (f1 ++ ['.'])) ++ (f2 ++ ['-'])) ++ f3 := by
      simp
    have hr4 : List.range 4 = [0, 1, 2, 3] := rfl
    rw [parseTileBounds, hr4]
    simp only [List.map_cons, List.map_nil]
    congr 1
    · rw [Nat.zero_mul, List.drop_zero, e0]
      exact congrArg pyIntCore (List.take_left' h0)
    congr 1
    · rw [Nat.one_mul, e1, List.drop_left' (by simp [h0])]
      exact congrArg pyIntCore (List.take_left' h1)
    congr 1
    · rw [e2, List.drop_left' (by simp [h0, h1]; ring)]
      exact congrArg pyIntCore (List.take_left' h2)
    congr 1
    · rw [e3, List.drop_left' (by simp [h0, h1, h2]; ring)]
      exact congrArg pyIntCore (by rw [← h3, List.take_length])

/-- Witness for the amended C7: a well-formed five-digit name matches, and its
bounds parse from the `filename_digits + 1`-wide slices. -/
theorem c7_witness :
    matchesTilePattern 5 ("00001-00002.00001-00002".data) = true ∧
    parseTileBounds 5
        ("00001".data ++ '-' :: "00002".data ++ '.' :: "00001".data ++ '-' ::
          "00002".data) = [some 1, some 2, some 1, some 2] := by
  constructor
  · exact ((c7_glob_width_and_slices 5 ("00001-00002.00001-00002".data)).1).2
      (by decide)
  · have h := (c7_glob_width_and_slices 5
        ("00001".data ++ '-' :: "00002".data ++ '.' :: "00001".data ++ '-' ::
          "00002".data)).2 ("00001".data) ("00002".data) ("00001".data)
      ("00002".data) (by decide) (by decide) (by decide) (by decide)
    rw [h]
    decide

/-- Helper for C4: the tile loop only ever sends pixel writes to the sink. -/
theorem tileEvents_only_writes (dy : Rat) (ws : Nat) (s : Bool)
    (z ty tx bdr : Nat) (ysz : Int) :
    ∀ tiles, ∀ e ∈ (tileEvents dy ws s z ty tx bdr ysz tiles).1,
      e.isWriteRaster = true := by
  intro tiles
  induction tiles with
  | nil =>
    intro e he
    simp [tileEvents] at he
  | cons tb rest ih =>
    intro e
    rw [tileEvents]
    cases hdec : decodeTile ws s z ty tx bdr tb.2 with
    | none =>
      intro he
      simp at he
    | some tile =>
      intro he
      simp only [] at he
      rcases List.mem_append.1 he with hw | hr
      · rcases List.mem_map.1 hw with ⟨iz, _, rfl⟩
        rfl
      · exact ih e hr

/-- Claim C4.  The geo-transform is the composition
`translate(known_lon, known_lat) ∘ scale(dx, dy) ∘ translate(-known_x,
-known_y)` applied to a pixel point; for `dy < 0` the six stored coefficients
are anchored at pixel `(1, 1)` with pixel height `dy`, for `dy ≥ 0` at
`(1, y_size)` with pixel height `-dy`, so the stored pixel-height coefficient
is always `-|dy|` (upper-left origin, row increases downward); and on a run
that passes the index assertions with at least one tile, the geo-transform is
sent to the sink exactly once, before any pixel write. -/
theorem c4_geotransform_built_once (known_lon known_lat dx dy known_x known_y
    y_size : Rat) (projection : String) (wordsize : Nat) (signed : Bool)
    (tile_z tile_y tile_x tile_bdr : Nat) (scale_factor : Rat)
    (missing_value : Option Rat)
    (tiles : List ((Int × Int × Int × Int) × List Nat)) :
    (∀ p : Rat × Rat,
      (geogridAffine known_lon known_lat dx dy known_x known_y).apply p =
        (known_lon + dx * (p.1 - known_x), known_lat + dy * (p.2 - known_y))) ∧
    (dy < 0 →
      geoTransform known_lon known_lat dx dy known_x known_y y_size =
        [known_lon + dx * (1 - known_x), dx, 0,
         known_lat + dy * (1 - known_y), 0, dy]) ∧
    (0 ≤ dy →
      geoTransform known_lon known_lat dx dy known_x known_y y_size =
        [known_lon + dx * (1 - known_x), dx, 0,
         known_lat + dy * (y_size - known_y), 0, -dy]) ∧
    ((geoTransform known_lon known_lat dx dy known_x known_y y_size).getD 5 0 =
      -|dy|) ∧
    (projection = "regular_ll" → 0 < dx → tiles ≠ [] → 1 ≤ wordsize →
      wordsize ≤ 4 →
      ∃ pre post,
        (mainTrace projection dx dy known_x known_y known_lat known_lon
            wordsize signed tile_z tile_y tile_x tile_bdr scale_factor
            missing_value tiles).1 = pre ++ post ∧
        pre.countP (fun e => e.isSetGeoTransform) = 1 ∧
        pre.countP (fun e => e.isWriteRaster) = 0 ∧
        post.countP (fun e => e.isSetGeoTransform) = 0) := by
  have happly : ∀ p : Rat × Rat,
      (geogridAffine known_lon known_lat dx dy known_x known_y).apply p =
        (known_lon + dx * (p.1 - known_x), known_lat + dy * (p.2 - known_y)) := by
    intro p
    simp only [geogridAffine, Affine.mul, Affine.translation, Affine.scale,
      Affine.apply]
    rw [Prod.mk.injEq]
    constructor <;> ring
  refine ⟨happly, ?_, ?_, ?_, ?_⟩
  · intro hdy
    rw [geoTransform, if_pos hdy, happly (1, 1)]
  · intro hdy
    rw [geoTransform, if_neg (not_lt.2 hdy), happly (1, y_size)]
  · rcases lt_or_le dy 0 with h | h
    · rw [geoTransform, if_pos h]
      simp [List.getD]
      rw [abs_of_neg h]
      ring
    · rw [geoTransform, if_neg (not_lt.2 h)]
      simp [List.getD]
      rw [abs_of_nonneg h]
  · intro hproj hdx hne h1 h4
    cases tiles with
    | nil => exact absurd rfl hne
    | cons tb rest =>
      obtain ⟨g, hg⟩ : ∃ g, get_gdal_type (wordsize : Int) signed = some g := by
        interval_cases wordsize <;> cases signed <;> exact ⟨_, rfl⟩
      rw [mainTrace, if_pos ⟨hproj, hdx⟩]
      have hcv : ∃ sz, canvasSize ((tb :: rest).map fun t => t.1) = some sz :=
        ⟨_, rfl⟩
      obtain ⟨sz, hsz⟩ := hcv
      rw [hsz, hg]
      simp only []
      refine ⟨_, _, rfl, ?_, ?_, ?_⟩
      · rw [List.countP_append]
        have hhead : List.countP (fun e => e.isSetGeoTransform)
            [SinkEvent.create sz.1 sz.2 (tile_z : Int) g,
             SinkEvent.setSpatialRef 4326,
             SinkEvent.setGeoTransform (geoTransform known_lon known_lat dx dy
               known_x known_y (sz.2 : Rat))] = 1 := rfl
        rw [hhead]
        have hband : List.countP (fun e => e.isSetGeoTransform)
            ((List.range tile_z).flatMap fun i =>
              SinkEvent.setScale (i + 1) scale_factor ::
                (match missing_value with
                 | some mv => [SinkEvent.setNoData (i + 1) mv]
                 | none => [])) = 0 := by
          rw [List.countP_eq_zero]
          intro e he
          rcases List.mem_flatMap.1 he with ⟨i, _, hei⟩
          rcases List.mem_cons.1 hei with rfl | hmv
          · simp [SinkEvent.isSetGeoTransform]
          · cases missing_value with
            | none => simp at hmv
            | some mv =>
              rcases List.mem_singleton.1 hmv with rfl
              simp [SinkEvent.isSetGeoTransform]
        rw [hband]
      · rw [List.countP_append]
        have hhead : List.countP (fun e => e.isWriteRaster)
            [SinkEvent.create sz.1 sz.2 (tile_z : Int) g,
             SinkEvent.setSpatialRef 4326,
             SinkEvent.setGeoTransform (geoTransform known_lon known_lat dx dy
               known_x known_y (sz.2 : Rat))] = 0 := rfl
        rw [hhead]
        have hband : List.countP (fun e => e.isWriteRaster)
            ((List.range tile_z).flatMap fun i =>
              SinkEvent.setScale (i + 1) scale_factor ::
                (match missing_value with
                 | some mv => [SinkEvent.setNoData (i + 1) mv]
                 | none => [])) = 0 := by
          rw [List.countP_eq_zero]
          intro e he
          rcases List.mem_flatMap.1 he with ⟨i, _, hei⟩
          rcases List.mem_cons.1 hei with rfl | hmv
          · simp [SinkEvent.isWriteRaster]
          · cases missing_value with
            | none => simp at hmv
            | some mv =>
              rcases List.mem_singleton.1 hmv with rfl
              simp [SinkEvent.isWriteRaster]
        rw [hband]
      · rw [List.countP_eq_zero]
        intro e he
        have hw := tileEvents_only_writes dy wordsize signed tile_z tile_y
          tile_x tile_bdr sz.2 (tb :: rest) e he
        cases e <;> simp_all [SinkEvent.isSetGeoTransform,
          SinkEvent.isWriteRaster]

/-- Witness for C4: concrete top-to-bottom coefficients, and a one-tile run in
which the geo-transform is sent exactly once before the only pixel write. -/
theorem c4_witness :
    geoTransform 10 50 (1 / 2) (-1 / 10) 1 1 9 =
      [10 + (1 / 2 : Rat) * (1 - 1), 1 / 2, 0,
       50 + (-1 / 10 : Rat) * (1 - 1), 0, -1 / 10] ∧
    (∃ pre post,
      (mainTrace "regular_ll" (1 / 2) (-1 / 10) 1 1 50 10 1 false 1 2 2 0 1
          none [((1, 2, 1, 2), [7, 7, 7, 7])]).1 = pre ++ post ∧
      pre.countP (fun e => e.isSetGeoTransform) = 1 ∧
      pre.countP (fun e => e.isWriteRaster) = 0 ∧
      post.countP (fun e => e.isSetGeoTransform) = 0) := by
  constructor
  · exact (c4_geotransform_built_once 10 50 (1 / 2) (-1 / 10) 1 1 9 "x" 1
      false 1 1 1 0 1 none []).2.1 (by norm_num)
  · exact (c4_geotransform_built_once 10 50 (1 / 2) (-1 / 10) 1 1 0
      "regular_ll" 1 false 1 2 2 0 1 none [((1, 2, 1, 2), [7, 7, 7, 7])]).2.2.2.2
      rfl (by norm_num) (by simp) (by norm_num) (by norm_num)
